import Mathlib

/-!
Verification of the MNIST int8 quantization and fixed-point inference pipeline
(`src/python/train_mnist.py`, `src/python/verify_test.py`).

Conventions of the embedding:
* numpy `int8` / `int32` values are modelled as `ℤ`; a store into an array of
  dtype `int8` (resp. `int32`) wraps modulo `2^8` (resp. `2^32`), modelled by
  `wrap8` (resp. `wrap32`).
* Python floats are modelled as `ℚ`; `np.round` rounds half to even
  (`roundHalfEven`).
* file contents are modelled as the list of their stripped lines
  (`List String`); Python exceptions are modelled by `Option`, with `none` for
  an aborted load.
-/

/-- Wrap an integer into the signed 8-bit range `[-128, 127]`
(numpy `astype(np.int8)` semantics). -/
def wrap8 (z : ℤ) : ℤ := (z + 128) % 256 - 128

/-- Wrap an integer into the signed 32-bit range (numpy `int32` store). -/
def wrap32 (z : ℤ) : ℤ := (z + 2 ^ 31) % 2 ^ 32 - 2 ^ 31

/-- Saturating clamp to the signed 8-bit range `[-128, 127]`. -/
def clamp8 (z : ℤ) : ℤ := max (-128) (min 127 z)

/-! ## FixedPointEngine: `inference_int8` (verify_test.py lines 68-107)

The layer-1 accumulator `z1[i]` is an `int32` cell seeded with
`int(b1[i]) * 256` and updated by `z1[i] += int(img[j]) * int(w1[j, i])` for
`j = 0 .. 783`; each store wraps to 32 bits. -/

/-- Layer-1 pre-activation accumulator `z1[i]` of `inference_int8`:
seeded with the bias scaled by 256, then 784 wrapped multiply-accumulate
steps in image order. -/
def z1pre (img : Fin 784 → ℤ) (w1 : Fin 784 → Fin 32 → ℤ) (b1 : Fin 32 → ℤ)
    (i : Fin 32) : ℤ :=
  (List.finRange 784).foldl (fun acc j => wrap32 (acc + img j * w1 j i))
    (wrap32 (b1 i * 256))

/-- Exact (unwrapped) value of the layer-1 accumulator. -/
def z1exact (img : Fin 784 → ℤ) (w1 : Fin 784 → Fin 32 → ℤ) (b1 : Fin 32 → ℤ)
    (i : Fin 32) : ℤ :=
  b1 i * 256 + ∑ j, img j * w1 j i

/-- ReLU and requantization of one layer-1 accumulator value
(verify_test.py lines 84-90): negative goes to 0, above 32767 goes to 127,
otherwise the value is shifted right by 8 (floor division by 256) and stored
into the `int8` activation array. -/
def relu_requant (z : ℤ) : ℤ :=
  if z < 0 then 0
  else if z > 32767 then 127
  else wrap8 (Int.fdiv z 256)

/-- Layer-1 activation `a1[i]` of `inference_int8`. -/
def a1act (img : Fin 784 → ℤ) (w1 : Fin 784 → Fin 32 → ℤ) (b1 : Fin 32 → ℤ)
    (i : Fin 32) : ℤ :=
  relu_requant (z1pre img w1 b1 i)

/-- Layer-2 pre-activation accumulator `z2[i]` of `inference_int8`
(verify_test.py lines 93-102): seeded with `int(b2[i])` (no scaling), then 32
wrapped multiply-accumulate steps. -/
def z2pre (a1 : Fin 32 → ℤ) (w2 : Fin 32 → Fin 10 → ℤ) (b2 : Fin 10 → ℤ)
    (i : Fin 10) : ℤ :=
  (List.finRange 32).foldl (fun acc j => wrap32 (acc + a1 j * w2 j i))
    (wrap32 (b2 i))

/-- Exact (unwrapped) value of the layer-2 accumulator. -/
def z2exact (a1 : Fin 32 → ℤ) (w2 : Fin 32 → Fin 10 → ℤ) (b2 : Fin 10 → ℤ)
    (i : Fin 10) : ℤ :=
  b2 i + ∑ j, a1 j * w2 j i

/-! ## Quantization/test path: `test_quantized_model` (train_mnist.py lines 107-109)

`z1 = np.dot(q_params['w1'].T, x_q.astype(np.int32)) + (q_params['b1'].astype(np.int32) * 127)`
computed in `int32`; the bias is scaled by 127 (not 256). -/

/-- Layer-1 pre-activation of the quantization/test path, bias scaled by 127.
The `int32` arithmetic of `np.dot` is modelled by a single final wrap; the two
agree whenever no intermediate overflows, which is the case at every input
this development evaluates. -/
def tq_z1pre (x : Fin 784 → ℤ) (w1 : Fin 784 → Fin 32 → ℤ) (b1 : Fin 32 → ℤ)
    (i : Fin 32) : ℤ :=
  wrap32 ((∑ j, w1 j i * x j) + b1 i * 127)

/-! ## Concrete parameter tensors used by the scenario claims -/

/-- The all-zero layer-1 weight matrix. -/
def zeroW : Fin 784 → Fin 32 → ℤ := fun _ _ => 0

/-- The layer-1 bias vector `[1, 0, ..., 0]`. -/
def e0bias : Fin 32 → ℤ := fun i => if i = 0 then 1 else 0

/-- The all-zero 784-pixel image. -/
def zImg : Fin 784 → ℤ := fun _ => 0

/-- The all-zero layer-1 bias vector. -/
def zB1 : Fin 32 → ℤ := fun _ => 0

/-- The all-zero layer-2 weight matrix. -/
def zW2 : Fin 32 → Fin 10 → ℤ := fun _ _ => 0

/-- The all-zero layer-2 bias vector. -/
def zB2 : Fin 10 → ℤ := fun _ => 0

/-! ## Quantizer: `quantize_weights` (train_mnist.py lines 58-72)

`max_val = np.max(np.abs(weights))`; `scale = 127 / max_val` when positive,
else `1.0`; `np.round(weights * scale).astype(np.int8)`. `np.round` rounds
half to even; the `int8` cast wraps. -/

/-- Round half to even (the convention of `np.round`). -/
def roundHalfEven (q : ℚ) : ℤ :=
  if q - Int.floor q < 1 / 2 then Int.floor q
  else if q - Int.floor q > 1 / 2 then Int.floor q + 1
  else if Int.floor q % 2 = 0 then Int.floor q else Int.floor q + 1

/-- Maximum absolute value of a tensor, `np.max(np.abs(weights))` over an
all-elements list (0 for the empty tensor). -/
def maxAbs (xs : List ℚ) : ℚ := xs.foldr (fun x m => max |x| m) 0

/-- The scale computed by `quantize_weights` with the default
`scale_factor = 127`. -/
def qscale (xs : List ℚ) : ℚ := if 0 < maxAbs xs then 127 / maxAbs xs else 1

/-- `quantize_weights`: elementwise `np.round(x * scale)` stored into an
`int8` tensor (wrapping cast), returned together with the scale. -/
def quantize_weights (xs : List ℚ) : List ℤ × ℚ :=
  (xs.map (fun x => wrap8 (roundHalfEven (x * qscale xs))), qscale xs)

/-! ## HexCodec

Export (train_mnist.py `export_weights_hex`, lines 135-161): each int8 value
`v` is written as `f-string {int(v) & 0xFF:02x}`, i.e. the two lowercase hex
digits of `v` mod 256, one value per line.

Import (verify_test.py `load_weights`, lines 26-64): each stripped line is
parsed by `int(line, 16)`; a parsed value greater than 127 is replaced by
`value - 256`; an unparsable line raises `ValueError`, aborting the load.
`int(line, 16)` is modelled for lines made of hexadecimal digits (Python
additionally accepts signs, `0x` prefixes and embedded underscores, none of
which occur in this system's files or in the claims). -/

/-- Lowercase hex digit character for a nibble, as produced by `{:02x}`. -/
def hexDigitChar (n : ℕ) : Char :=
  if n < 10 then Char.ofNat (48 + n) else Char.ofNat (87 + n)

/-- Encode one signed 8-bit value as its two-lowercase-hex-digit line
(`{int(v) & 0xFF:02x}`). -/
def encodeVal (v : ℤ) : String :=
  String.mk [hexDigitChar ((v % 256).toNat / 16), hexDigitChar ((v % 256).toNat % 16)]

/-- Numeric value of a hexadecimal digit character (`int` with base 16
accepts both lowercase and uppercase). -/
def hexDigitVal (c : Char) : Option ℕ :=
  if 48 ≤ c.toNat ∧ c.toNat ≤ 57 then some (c.toNat - 48)
  else if 97 ≤ c.toNat ∧ c.toNat ≤ 102 then some (c.toNat - 87)
  else if 65 ≤ c.toNat ∧ c.toNat ≤ 70 then some (c.toNat - 55)
  else none

/-- Accumulating base-16 parse of a digit list. -/
def parseHexAux : List Char → ℕ → Option ℕ
  | [], acc => some acc
  | c :: cs, acc =>
    match hexDigitVal c with
    | some d => parseHexAux cs (16 * acc + d)
    | none => none

/-- `int(line, 16)` on a stripped line: a nonempty string of hex digits
parses to its value, anything else raises (`none`). -/
def parseHexLine (s : String) : Option ℕ :=
  match s.data with
  | [] => none
  | c :: cs => parseHexAux (c :: cs) 0

/-- One line of the weight/bias import loop: parse as unsigned, then convert
`val > 127` to `val - 256`. -/
def decodeLineSigned (s : String) : Option ℤ :=
  match parseHexLine s with
  | some n => some (if 127 < (n : ℤ) then (n : ℤ) - 256 else (n : ℤ))
  | none => none

/-- The whole import loop over the lines of a hex file; the first bad line
aborts the load with nothing retained. -/
def decodeSigned : List String → Option (List ℤ)
  | [] => some []
  | s :: rest =>
    match decodeLineSigned s, decodeSigned rest with
    | some v, some vs => some (v :: vs)
    | _, _ => none

/-- Loading a bias file (`load_weights` b1/b2 paths): decode all lines, then
`np.array(vals).astype(np.int8)` — a wrapping cast and no length check. -/
def loadVector (lines : List String) : Option (List ℤ) :=
  match decodeSigned lines with
  | some vs => some (vs.map wrap8)
  | none => none

/-- Loading a weight-matrix file (`load_weights` w1/w2 paths): decode all
lines, `reshape(rows, cols)` (which raises unless the count is exactly
`rows * cols`), then the wrapping `int8` cast. The matrix is kept flat in
row-major order, exactly the order of the file. -/
def loadMatrix (lines : List String) (rows cols : ℕ) : Option (List ℤ) :=
  match decodeSigned lines with
  | some vs => if vs.length = rows * cols then some (vs.map wrap8) else none
  | none => none

/-- Image bytes (`load_test_data`, lines 11-15): parsed unsigned values are
cast by `astype(np.int8)`, which wraps modulo 256. -/
def imgByteToSigned (n : ℕ) : ℤ := wrap8 (n : ℤ)

/-- Weight bytes (`load_weights`, lines 29-32): parsed unsigned values above
127 are shifted down by 256. -/
def weightByteToSigned (n : ℕ) : ℤ :=
  if 127 < (n : ℤ) then (n : ℤ) - 256 else (n : ℤ)

/-! ## Helper lemmas about the wrapped machine arithmetic -/

/-- `wrap32` is the identity on values that fit in a signed 32-bit integer. -/
lemma wrap32_id {z : ℤ} (h1 : -2 ^ 31 ≤ z) (h2 : z < 2 ^ 31) : wrap32 z = z := by
  unfold wrap32; omega

/-- `wrap8` is the identity on values in `[-128, 127]`. -/
lemma wrap8_id {z : ℤ} (h1 : -128 ≤ z) (h2 : z ≤ 127) : wrap8 z = z := by
  unfold wrap8; omega

/-- A fold of wrapped additions computes the exact sum as long as the running
total provably stays inside the 32-bit range. -/
lemma foldl_wrap32_eq (l : List ℤ) : ∀ (init B M : ℤ),
    (∀ x ∈ l, |x| ≤ M) → |init| ≤ B → 0 ≤ M →
    B + (l.length : ℤ) * M < 2 ^ 31 →
    l.foldl (fun acc x => wrap32 (acc + x)) init = init + l.sum := by
  induction l with
  | nil => intro init B M _ _ _ _; simp
  | cons x xs ih =>
    intro init B M hmem hinit hM hbound
    have hx : |x| ≤ M := hmem x (List.mem_cons_self x xs)
    have hlen : ((x :: xs).length : ℤ) = (xs.length : ℤ) + 1 := by
      simp
    have hbound2 : B + M + (xs.length : ℤ) * M < 2 ^ 31 := by
      rw [hlen] at hbound; nlinarith
    have hstep : |init + x| ≤ B + M := by
      calc |init + x| ≤ |init| + |x| := abs_add _ _
        _ ≤ B + M := by omega
    have hsum : (0 : ℤ) ≤ (xs.length : ℤ) * M := by positivity
    have habs : -(B + M) ≤ init + x ∧ init + x ≤ B + M := abs_le.mp hstep
    have hwrap : wrap32 (init + x) = init + x := by
      apply wrap32_id
      · omega
      · omega
    have hrec := ih (init + x) (B + M) M
      (fun y hy => hmem y (List.mem_cons_of_mem x hy)) hstep hM hbound2
    simp only [List.foldl_cons, hwrap, List.sum_cons]
    rw [hrec]; ring

/-- The layer-1 accumulator with the all-zero weight matrix reduces to the
scaled bias, for every image. -/
lemma z1pre_zeroW (img : Fin 784 → ℤ) (b : Fin 32 → ℤ) (i : Fin 32)
    (h1 : -2 ^ 31 ≤ b i * 256) (h2 : b i * 256 < 2 ^ 31) :
    z1pre img zeroW b i = b i * 256 := by
  unfold z1pre
  have hfun : (fun (acc : ℤ) (j : Fin 784) => wrap32 (acc + img j * zeroW j i)) =
      fun acc _ => wrap32 acc := by
    funext acc j
    simp [zeroW]
  rw [hfun, wrap32_id h1 h2]
  have hfold : ∀ l : List (Fin 784), ∀ init : ℤ, -2 ^ 31 ≤ init → init < 2 ^ 31 →
      l.foldl (fun (acc : ℤ) _ => wrap32 acc) init = init := by
    intro l
    induction l with
    | nil => intro init _ _; simp
    | cons x xs ih =>
      intro init ha hb
      simp only [List.foldl_cons]
      rw [wrap32_id ha hb]
      exact ih init ha hb
  exact hfold (List.finRange 784) (b i * 256) h1 h2

set_option maxRecDepth 4000 in
lemma parse_encode_byte : ∀ b : Fin 256, parseHexLine (encodeVal ((b : ℤ))) = some b.val := by
  decide

/-- Decoding one encoded line recovers the signed value. -/
lemma decodeLineSigned_encode (v : ℤ) (h1 : -128 ≤ v) (h2 : v ≤ 127) :
    decodeLineSigned (encodeVal v) = some v := by
  have hb : (v % 256).toNat < 256 := by omega
  have harg : ((((v % 256).toNat : ℤ)) % 256).toNat = (v % 256).toNat := by omega
  have henc : encodeVal v = encodeVal (((v % 256).toNat : ℤ)) := by
    unfold encodeVal
    rw [harg]
  have hparse := parse_encode_byte ⟨(v % 256).toNat, hb⟩
  rw [henc]
  unfold decodeLineSigned
  rw [hparse]
  simp only [Option.some.injEq]
  split_ifs with hc
  · omega
  · omega

/-- Decoding an encoded list of in-range values recovers the list. -/
lemma decodeSigned_encode (T : List ℤ) (h : ∀ v ∈ T, -128 ≤ v ∧ v ≤ 127) :
    decodeSigned (T.map encodeVal) = some T := by
  induction T with
  | nil => simp [decodeSigned]
  | cons v vs ih =>
    have hv := h v (List.mem_cons_self v vs)
    have hrec := ih (fun y hy => h y (List.mem_cons_of_mem v hy))
    simp only [List.map_cons, decodeSigned]
    rw [decodeLineSigned_encode v hv.1 hv.2, hrec]

/-- `maxAbs` is nonnegative. -/
lemma maxAbs_nonneg (xs : List ℚ) : 0 ≤ maxAbs xs := by
  induction xs with
  | nil => simp [maxAbs]
  | cons x xs ih =>
    simp only [maxAbs, List.foldr_cons] at ih ⊢
    exact le_trans ih (le_max_right _ _)

/-- Every element is bounded in magnitude by `maxAbs`. -/
lemma le_maxAbs {xs : List ℚ} {x : ℚ} (h : x ∈ xs) : |x| ≤ maxAbs xs := by
  induction xs with
  | nil => cases h
  | cons y ys ih =>
    rcases List.mem_cons.mp h with rfl | h2
    · simp only [maxAbs, List.foldr_cons]
      exact le_max_left _ _
    · refine le_trans (ih h2) ?_
      simp only [maxAbs, List.foldr_cons]
      exact le_max_right _ _

/-- Round-half-to-even of a value of magnitude at most 127 stays within
`[-127, 127]`. -/
lemma roundHalfEven_bound {q : ℚ} (h : |q| ≤ 127) :
    -127 ≤ roundHalfEven q ∧ roundHalfEven q ≤ 127 := by
  obtain ⟨hl, hr⟩ := abs_le.mp h
  have hfl : (-127 : ℤ) ≤ Int.floor q := by
    rw [Int.le_floor]
    exact_mod_cast hl
  have hfu : Int.floor q ≤ 127 := by
    have h127 : ((127 : ℤ) : ℚ) = (127 : ℚ) := by norm_num
    have := Int.floor_le_floor (α := ℚ) hr
    rw [← h127, Int.floor_intCast] at this
    exact this
  have hfq := Int.floor_le q
  unfold roundHalfEven
  split_ifs with hc1 hc2 hc3
  · exact ⟨hfl, hfu⟩
  · constructor
    · omega
    · have hge : (1 : ℚ) / 2 ≤ q - Int.floor q := le_of_lt hc2
      have : (Int.floor q : ℚ) < 127 := by linarith
      have : Int.floor q < 127 := by exact_mod_cast this
      omega
  · constructor
    · omega
    · have hge : (1 : ℚ) / 2 ≤ q - Int.floor q := not_lt.mp hc1
      have : (Int.floor q : ℚ) < 127 := by linarith
      have : Int.floor q < 127 := by exact_mod_cast this
      omega
  · constructor
    · omega
    · have hge : (1 : ℚ) / 2 ≤ q - Int.floor q := not_lt.mp hc1
      have : (Int.floor q : ℚ) < 127 := by linarith
      have : Int.floor q < 127 := by exact_mod_cast this
      omega

/-- Scaled elements have magnitude at most 127. -/
lemma quantized_in_range {xs : List ℚ} {x : ℚ} (h : x ∈ xs) :
    |x * qscale xs| ≤ 127 := by
  have hx := le_maxAbs h
  have h0 := maxAbs_nonneg xs
  unfold qscale
  split_ifs with hpos
  · rw [abs_mul, abs_of_pos (by positivity : (0 : ℚ) < 127 / maxAbs xs)]
    calc |x| * (127 / maxAbs xs) ≤ maxAbs xs * (127 / maxAbs xs) :=
          mul_le_mul_of_nonneg_right hx (by positivity)
      _ = 127 := by field_simp
  · have hz : maxAbs xs = 0 := le_antisymm (not_lt.mp hpos) h0
    have hx0 : x = 0 := by
      rw [hz] at hx
      exact abs_eq_zero.mp (le_antisymm hx (abs_nonneg x))
    rw [hx0]
    simp

/-- An all-zero tensor has `maxAbs` zero. -/
lemma maxAbs_zero {xs : List ℚ} (h : ∀ x ∈ xs, x = 0) : maxAbs xs = 0 := by
  induction xs with
  | nil => simp [maxAbs]
  | cons x ys ih =>
    have hx : x = 0 := h x (List.mem_cons_self x ys)
    have hrec : maxAbs ys = 0 := ih (fun y hy => h y (List.mem_cons_of_mem x hy))
    simp only [maxAbs, List.foldr_cons] at hrec ⊢
    rw [hx, hrec]
    simp

/-- Rounding zero gives zero. -/
lemma roundHalfEven_zero : roundHalfEven 0 = 0 := by
  unfold roundHalfEven
  norm_num

/-- `relu_requant` always lands in `[0, 127]`. -/
lemma relu_requant_range (z : ℤ) : 0 ≤ relu_requant z ∧ relu_requant z ≤ 127 := by
  unfold relu_requant
  split_ifs with hneg hbig
  · omega
  · omega
  · have hz : 0 ≤ z := by omega
    have hz2 : z ≤ 32767 := by omega
    have hdiv : Int.fdiv z 256 = z / 256 := Int.fdiv_eq_ediv z (by norm_num)
    rw [hdiv, wrap8_id (by omega) (by omega)]
    omega

/-- Magnitude bound for a signed 8-bit value. -/
lemma abs_le_of_int8 {x : ℤ} (h1 : -128 ≤ x) (h2 : x ≤ 127) : |x| ≤ 128 :=
  abs_le.mpr ⟨h1, by omega⟩

/-- A wrapped multiply-accumulate fold over `Fin n` computes the exact sum
when the running total provably fits in 32 bits. -/
lemma foldl_mac_eq {n : ℕ} (f : Fin n → ℤ) (init B M : ℤ)
    (hf : ∀ j, |f j| ≤ M) (hinit : |init| ≤ B) (hM : 0 ≤ M)
    (hbound : B + (n : ℤ) * M < 2 ^ 31) :
    (List.finRange n).foldl (fun acc j => wrap32 (acc + f j)) init
      = init + ∑ j, f j := by
  have h1 : (List.finRange n).foldl (fun acc j => wrap32 (acc + f j)) init
      = ((List.finRange n).map f).foldl (fun acc x => wrap32 (acc + x)) init := by
    rw [List.foldl_map]
  have hmem : ∀ x ∈ (List.finRange n).map f, |x| ≤ M := by
    intro x hx
    obtain ⟨j, _, rfl⟩ := List.mem_map.mp hx
    exact hf j
  have hlen : (((List.finRange n).map f).length : ℤ) = (n : ℤ) := by
    simp
  have h2 := foldl_wrap32_eq ((List.finRange n).map f) init B M hmem hinit hM
    (by rw [hlen]; exact hbound)
  rw [h1, h2, Fin.sum_univ_def]

/-- Triangle-inequality bound for a sum of uniformly bounded terms. -/
lemma sum_abs_le {n : ℕ} (f : Fin n → ℤ) (M : ℤ) (hf : ∀ j, |f j| ≤ M) :
    |∑ j, f j| ≤ (n : ℤ) * M := by
  calc |∑ j, f j| ≤ ∑ j, |f j| := Finset.abs_sum_le_sum_abs f Finset.univ
    _ ≤ (n : ℤ) * M := by
      have h := Finset.sum_le_card_nsmul Finset.univ (fun j => |f j|) M (fun j _ => hf j)
      simpa [nsmul_eq_mul] using h

/-! ## Claim theorems -/

/-- C1: with the all-zero layer-1 weight matrix and bias `[1, 0, ..., 0]`,
for every input image the neuron-0 accumulator equals exactly 256 before the
shift, its post-shift activation equals 1 (256 >> 8), and every other
neuron's activation equals 0. -/
theorem c1_zero_weights_scenario (img : Fin 784 → ℤ) :
    z1pre img zeroW e0bias 0 = 256 ∧
    a1act img zeroW e0bias 0 = 1 ∧
    ∀ i : Fin 32, i ≠ 0 → a1act img zeroW e0bias i = 0 := by
  have hb0 : e0bias 0 = 1 := by norm_num [e0bias]
  have h0 := z1pre_zeroW img e0bias 0 (by rw [hb0]; norm_num) (by rw [hb0]; norm_num)
  rw [hb0] at h0
  norm_num at h0
  refine ⟨h0, ?_, ?_⟩
  · unfold a1act
    rw [h0]
    decide
  · intro i hi
    have hbi : e0bias i = 0 := by simp [e0bias, hi]
    have h1 := z1pre_zeroW img e0bias i (by rw [hbi]; norm_num) (by rw [hbi]; norm_num)
    rw [hbi] at h1
    norm_num at h1
    unfold a1act
    rw [h1]
    decide

/-- Witness for C1 at the all-zero image and neuron 1. -/
theorem c1_witness :
    z1pre zImg zeroW e0bias 0 = 256 ∧ a1act zImg zeroW e0bias 0 = 1 ∧
    a1act zImg zeroW e0bias 1 = 0 := by
  obtain ⟨h1, h2, h3⟩ := c1_zero_weights_scenario zImg
  exact ⟨h1, h2, h3 1 (by decide)⟩

/-- C2: the two inference paths do not apply the same bias pre-scaling
constant: with zero weights, the zero image, and bias `[1, 0, ..., 0]`, the
quantization/test path (`test_quantized_model`) seeds the neuron-0
accumulator with 127 while the hardware-emulation path (`inference_int8`)
seeds it with 256. -/
theorem c2_bias_scale_mismatch :
    tq_z1pre zImg zeroW e0bias 0 = 127 ∧
    z1pre zImg zeroW e0bias 0 = 256 ∧
    tq_z1pre zImg zeroW e0bias 0 ≠ z1pre zImg zeroW e0bias 0 := by
  have htq : tq_z1pre zImg zeroW e0bias 0 = 127 := by
    unfold tq_z1pre
    have hsum : (∑ j, zeroW j 0 * zImg j) = 0 := by
      simp [zeroW]
    rw [hsum]
    have hb0 : e0bias 0 = 1 := by norm_num [e0bias]
    rw [hb0]
    decide
  have hz : z1pre zImg zeroW e0bias 0 = 256 := by
    have hb0 : e0bias 0 = 1 := by norm_num [e0bias]
    have h0 := z1pre_zeroW zImg e0bias 0 (by rw [hb0]; norm_num) (by rw [hb0]; norm_num)
    rw [hb0] at h0
    norm_num at h0
    exact h0
  refine ⟨htq, hz, ?_⟩
  rw [htq, hz]
  norm_num

/-- C3: each output element of `quantize_weights` equals the rounded scaled
value saturated to `[-128, 127]`; the wrapping int8 cast never actually
wraps because every rounded value already lies in `[-127, 127]`. -/
theorem c3_quantize_saturates (xs : List ℚ) :
    (quantize_weights xs).1 =
      xs.map (fun x => clamp8 (roundHalfEven (x * (quantize_weights xs).2))) := by
  unfold quantize_weights
  simp only
  apply List.map_congr_left
  intro x hx
  obtain ⟨hl, hr⟩ := roundHalfEven_bound (quantized_in_range hx)
  rw [wrap8_id (by omega) (by omega)]
  unfold clamp8
  omega

/-- C4: hex-codec round trip: encoding any list of signed 8-bit values and
decoding it back yields the identical list. -/
theorem c4_roundtrip (T : List ℤ) (h : ∀ v ∈ T, -128 ≤ v ∧ v ≤ 127) :
    decodeSigned (T.map encodeVal) = some T :=
  decodeSigned_encode T h

/-- Witness for C4 on the list `[-1, 127, -128]`. -/
theorem c4_witness :
    (∀ v ∈ ((-1 : ℤ) :: 127 :: -128 :: []), -128 ≤ v ∧ v ≤ 127) ∧
    decodeSigned (((-1 : ℤ) :: 127 :: -128 :: []).map encodeVal) =
      some ((-1 : ℤ) :: 127 :: -128 :: []) :=
  ⟨by decide, c4_roundtrip ((-1 : ℤ) :: 127 :: -128 :: []) (by decide)⟩

/-- C5: the ReLU/requantization rule on a 32-bit accumulator value: negative
gives 0, above 32767 gives 127, otherwise the value is arithmetically
shifted right by 8 bits (floor division by 256) and saturated to
`[-128, 127]`. -/
theorem c5_relu_requant (z : ℤ) (h1 : -2 ^ 31 ≤ z) (h2 : z < 2 ^ 31) :
    relu_requant z =
      if z < 0 then 0 else if z > 32767 then 127 else clamp8 (Int.fdiv z 256) := by
  unfold relu_requant
  split_ifs with hneg hbig
  · rfl
  · rfl
  · have hz : 0 ≤ z := by omega
    have hdiv : Int.fdiv z 256 = z / 256 := Int.fdiv_eq_ediv z (by norm_num)
    rw [hdiv, wrap8_id (by omega) (by omega)]
    unfold clamp8
    omega

/-- Witness for C5 at the accumulator value 1000. -/
theorem c5_witness :
    (-2 ^ 31 ≤ (1000 : ℤ)) ∧ ((1000 : ℤ) < 2 ^ 31) ∧
    relu_requant 1000 =
      (if (1000 : ℤ) < 0 then 0 else if (1000 : ℤ) > 32767 then 127
        else clamp8 (Int.fdiv 1000 256)) :=
  ⟨by norm_num, by norm_num, c5_relu_requant 1000 (by norm_num) (by norm_num)⟩

/-- C6: the loader does not reject every line that is not exactly two hex
digits: the three-digit line "abc" is accepted by `int(line, 16)` as 2748,
sign-converted to 2492 and wrapped by the int8 cast to -68, so the load
succeeds with corrupted data; only genuinely unparsable lines such as "zz"
abort the load. -/
theorem c6_malformed_line :
    loadVector (("abc") :: []) = some ((-68 : ℤ) :: []) ∧
    loadVector (("zz") :: []) = none := by
  constructor
  · decide
  · decide

/-- C7 counterexample: a 31-line bias file (31 differs from the expected
element count 32 of `b1`) loads successfully into a 31-element vector
instead of failing with a shape error. -/
theorem c7_counterexample :
    loadVector (List.replicate 31 ("00")) = some (List.replicate 31 (0 : ℤ)) ∧
    (31 : ℕ) ≠ 32 := by
  constructor
  · decide
  · decide

/-- C7 amended: a weight-matrix load fails when the decoded element count
differs from rows*cols (the reshape raises), but a bias-vector load performs
no element-count check and returns whatever sequence was decoded (after the
wrapping int8 cast). -/
theorem c7_amended_shape_check :
    (∀ (rows cols : ℕ) (lines : List String) (vs : List ℤ),
        decodeSigned lines = some vs → vs.length ≠ rows * cols →
        loadMatrix lines rows cols = none) ∧
    (∀ (lines : List String) (vs : List ℤ),
        decodeSigned lines = some vs → loadVector lines = some (vs.map wrap8)) := by
  constructor
  · intro rows cols lines vs h hlen
    unfold loadMatrix
    rw [h]
    simp [hlen]
  · intro lines vs h
    unfold loadVector
    rw [h]

/-- Witness for C7 amended: three decoded values against a 2x2 matrix fail,
while the same three lines load as a bias vector. -/
theorem c7_witness :
    loadMatrix (List.replicate 3 ("00")) 2 2 = none ∧
    loadVector (List.replicate 3 ("00")) = some ((List.replicate 3 (0 : ℤ)).map wrap8) :=
  ⟨c7_amended_shape_check.1 2 2 (List.replicate 3 ("00")) (List.replicate 3 (0 : ℤ))
      (by decide) (by decide),
    c7_amended_shape_check.2 (List.replicate 3 ("00")) (List.replicate 3 (0 : ℤ)) (by decide)⟩

/-- C8: quantizing an all-zero tensor yields scale factor exactly 1 and an
all-zero output; the scale computation takes the `max_val = 0` branch and
never divides by zero. -/
theorem c8_quantize_zero (xs : List ℚ) (h : ∀ x ∈ xs, x = 0) :
    quantize_weights xs = (xs.map (fun _ => (0 : ℤ)), 1) := by
  have hscale : qscale xs = 1 := by
    unfold qscale
    rw [maxAbs_zero h]
    norm_num
  unfold quantize_weights
  rw [hscale]
  simp only [Prod.mk.injEq]
  refine ⟨?_, trivial⟩
  apply List.map_congr_left
  intro x hx
  rw [h x hx]
  rw [zero_mul, roundHalfEven_zero]
  decide

/-- Witness for C8 on the two-element zero tensor. -/
theorem c8_witness :
    (∀ x ∈ ((0 : ℚ) :: 0 :: []), x = 0) ∧
    quantize_weights ((0 : ℚ) :: 0 :: []) =
      (((0 : ℚ) :: 0 :: []).map (fun _ => (0 : ℤ)), 1) :=
  ⟨by decide, c8_quantize_zero ((0 : ℚ) :: 0 :: []) (by decide)⟩

/-- C10: the image-loading conversion (wrapping int8 cast) and the
weight-loading conversion (explicit subtract-256 above 127) agree on every
byte value. -/
theorem c10_decode_paths_agree (n : ℕ) (h : n ≤ 255) :
    imgByteToSigned n = weightByteToSigned n := by
  unfold imgByteToSigned weightByteToSigned wrap8
  split_ifs with hc
  · omega
  · omega

/-- Witness for C10 at the byte value 200. -/
theorem c10_witness :
    ((200 : ℕ) ≤ 255) ∧ imgByteToSigned 200 = weightByteToSigned 200 :=
  ⟨by norm_num, c10_decode_paths_agree 200 (by norm_num)⟩

/-- C9: for every well-formed input (pixels, weights and biases in
`[-128, 127]`) the layer-1 accumulator magnitude is bounded by
`128*256 + 784*128*128` and the layer-2 accumulator magnitude by
`128 + 32*127*128`, both strictly below `2^31`, so the wrapped int32
accumulators compute the exact integer values with no wraparound. -/
theorem c9_no_overflow (img : Fin 784 → ℤ) (w1 : Fin 784 → Fin 32 → ℤ)
    (b1 : Fin 32 → ℤ) (w2 : Fin 32 → Fin 10 → ℤ) (b2 : Fin 10 → ℤ)
    (himg : ∀ j, -128 ≤ img j ∧ img j ≤ 127)
    (hw1 : ∀ j i, -128 ≤ w1 j i ∧ w1 j i ≤ 127)
    (hb1 : ∀ i, -128 ≤ b1 i ∧ b1 i ≤ 127)
    (hw2 : ∀ j i, -128 ≤ w2 j i ∧ w2 j i ≤ 127)
    (hb2 : ∀ i, -128 ≤ b2 i ∧ b2 i ≤ 127) :
    (∀ i, z1pre img w1 b1 i = z1exact img w1 b1 i ∧
        |z1exact img w1 b1 i| ≤ 128 * 256 + 784 * 128 * 128) ∧
    (∀ i, z2pre (a1act img w1 b1) w2 b2 i = z2exact (a1act img w1 b1) w2 b2 i ∧
        |z2exact (a1act img w1 b1) w2 b2 i| ≤ 128 + 32 * 127 * 128) ∧
    ((128 * 256 + 784 * 128 * 128 : ℤ) < 2 ^ 31 ∧
      (128 + 32 * 127 * 128 : ℤ) < 2 ^ 31) := by
  have hprod1 : ∀ (i : Fin 32) (j : Fin 784), |img j * w1 j i| ≤ 128 * 128 := by
    intro i j
    rw [abs_mul]
    exact mul_le_mul (abs_le_of_int8 (himg j).1 (himg j).2)
      (abs_le_of_int8 (hw1 j i).1 (hw1 j i).2) (abs_nonneg _) (by norm_num)
  have habs256 : |(256 : ℤ)| = 256 := by norm_num
  refine ⟨?_, ?_, by norm_num, by norm_num⟩
  · intro i
    have hbinit : |b1 i * 256| ≤ 128 * 256 := by
      rw [abs_mul, habs256]
      exact mul_le_mul_of_nonneg_right (abs_le_of_int8 (hb1 i).1 (hb1 i).2) (by norm_num)
    have hbinit2 := abs_le.mp hbinit
    have hwrapinit : wrap32 (b1 i * 256) = b1 i * 256 :=
      wrap32_id (by omega) (by omega)
    have heq : z1pre img w1 b1 i = b1 i * 256 + ∑ j, img j * w1 j i := by
      unfold z1pre
      rw [hwrapinit]
      exact foldl_mac_eq (fun j => img j * w1 j i) (b1 i * 256) (128 * 256) (128 * 128)
        (hprod1 i) hbinit (by norm_num) (by norm_num)
    constructor
    · unfold z1exact
      exact heq
    · unfold z1exact
      have hsum := sum_abs_le (fun j => img j * w1 j i) (128 * 128) (hprod1 i)
      norm_num at hsum
      calc |b1 i * 256 + ∑ j, img j * w1 j i|
          ≤ |b1 i * 256| + |∑ j, img j * w1 j i| := abs_add _ _
        _ ≤ 128 * 256 + 784 * 128 * 128 := by
            norm_num
            omega
  · intro i
    have ha1 : ∀ j, |a1act img w1 b1 j| ≤ 127 := by
      intro j
      obtain ⟨hl, hr⟩ := relu_requant_range (z1pre img w1 b1 j)
      unfold a1act
      rw [abs_of_nonneg hl]
      exact hr
    have hprod2 : ∀ j : Fin 32, |a1act img w1 b1 j * w2 j i| ≤ 127 * 128 := by
      intro j
      rw [abs_mul]
      exact mul_le_mul (ha1 j) (abs_le_of_int8 (hw2 j i).1 (hw2 j i).2)
        (abs_nonneg _) (by norm_num)
    have hbinit : |b2 i| ≤ 128 := abs_le_of_int8 (hb2 i).1 (hb2 i).2
    have hbinit2 := abs_le.mp hbinit
    have hwrapinit : wrap32 (b2 i) = b2 i := wrap32_id (by omega) (by omega)
    have heq : z2pre (a1act img w1 b1) w2 b2 i
        = b2 i + ∑ j, a1act img w1 b1 j * w2 j i := by
      unfold z2pre
      rw [hwrapinit]
      exact foldl_mac_eq (fun j => a1act img w1 b1 j * w2 j i) (b2 i) 128 (127 * 128)
        hprod2 hbinit (by norm_num) (by norm_num)
    constructor
    · unfold z2exact
      exact heq
    · unfold z2exact
      have hsum := sum_abs_le (fun j => a1act img w1 b1 j * w2 j i) (127 * 128) hprod2
      norm_num at hsum
      calc |b2 i + ∑ j, a1act img w1 b1 j * w2 j i|
          ≤ |b2 i| + |∑ j, a1act img w1 b1 j * w2 j i| := abs_add _ _
        _ ≤ 128 + 32 * 127 * 128 := by
            norm_num
            omega

/-- Witness for C9 at the all-zero image, weights and biases. -/
theorem c9_witness :
    (∀ i : Fin 32, z1pre zImg zeroW zB1 i = z1exact zImg zeroW zB1 i ∧
        |z1exact zImg zeroW zB1 i| ≤ 128 * 256 + 784 * 128 * 128) ∧
    (∀ i : Fin 10, z2pre (a1act zImg zeroW zB1) zW2 zB2 i
          = z2exact (a1act zImg zeroW zB1) zW2 zB2 i ∧
        |z2exact (a1act zImg zeroW zB1) zW2 zB2 i| ≤ 128 + 32 * 127 * 128) ∧
    ((128 * 256 + 784 * 128 * 128 : ℤ) < 2 ^ 31 ∧
      (128 + 32 * 127 * 128 : ℤ) < 2 ^ 31) :=
  c9_no_overflow zImg zeroW zB1 zW2 zB2
    (fun j => by norm_num [zImg]) (fun j i => by norm_num [zeroW])
    (fun i => by norm_num [zB1]) (fun j i => by norm_num [zW2])
    (fun i => by norm_num [zB2])
